import Mathlib

/-!
Verification of the Rate-Monotonic scheduling simulator (`main.py`).

The development is a shallow embedding of the source:

* `Task`, `Job`, `Processor` mirror the Python data classes.
* Simulated time and remaining execution amounts are modelled by `ℚ`
  (the Python code uses floats together with an explicit `1e-9`
  tolerance; exact rationals are the idealisation of that arithmetic,
  with the tolerance comparisons transcribed literally).
* `liu_layland_bound` is real-valued (`math.pow(2, 1/n)` is a real
  exponential), so the partitioner's admission test compares rationals
  with a real bound and the partitioner is noncomputable.
* The unbounded `while` loop of `run_simulation` is modelled by a
  fuel-indexed iteration `simLoop` of the loop body `simStep`; the body
  returns `none` exactly when the Python loop executes `break`.
-/

namespace RM

/-- Mirrors the frozen dataclass `Task` of `main.py` (`id`, `period`,
`execution_time`, both integers in every scenario of the repository). -/
structure Task where
  id : String
  period : ℤ
  execution_time : ℤ
deriving DecidableEq, Repr

/-- `Task.utilization`: `execution_time / period` (property `utilization`). -/
def Task.utilization (t : Task) : ℚ :=
  (t.execution_time : ℚ) / (t.period : ℚ)

/-- Mirrors the dataclass `Job` of `main.py`. -/
structure Job where
  task : Task
  id : ℕ
  arrival_time : ℚ
  remaining_time : ℚ
  absolute_deadline : ℚ
  completed : Bool
deriving DecidableEq, Repr

/-- Mirrors the class `Processor` of `main.py`: core id, the tasks assigned
by partitioning, the running job slot, the ready queue and the execution
log of `(start_time, end_time, task_id)` segments. -/
structure Processor where
  id : ℕ
  assigned_tasks : List Task
  active_job : Option Job
  ready_queue : List Job
  execution_log : List (ℚ × ℚ × String)
deriving DecidableEq, Repr

/-- Mirrors `Processor.__init__(pid)`. -/
def Processor.init (pid : ℕ) : Processor :=
  { id := pid, assigned_tasks := [], active_job := none,
    ready_queue := [], execution_log := [] }

/-- Mirrors `Processor.utilization`: sum of assigned task utilizations. -/
def Processor.utilization (p : Processor) : ℚ :=
  (p.assigned_tasks.map Task.utilization).sum

/-- Mirrors `Processor.add_task`. -/
def Processor.add_task (p : Processor) (t : Task) : Processor :=
  { p with assigned_tasks := p.assigned_tasks ++ [t] }

/-!  A stable sort on an integer key.  Python's `list.sort` / `sorted`
are stable sorts; insertion sort that inserts each element (taken from
the front of the list) before the first element of strictly larger key
is extensionally the same function, and is what we use to embed
`sorted(tasks, key=lambda t: t.period)` and
`Processor.sort_ready_queue`. -/

/-- Insert `a` into `l` before the first element whose key is `≥ key a`. -/
def insertKey {α : Type} (key : α → ℤ) (a : α) : List α → List α
  | [] => [a]
  | b :: l => if key a ≤ key b then a :: b :: l else b :: insertKey key a l

/-- Stable insertion sort by an integer key, ascending. -/
def sortKey {α : Type} (key : α → ℤ) : List α → List α
  | [] => []
  | a :: l => insertKey key a (sortKey key l)

/-- Mirrors `Processor.sort_ready_queue`:
`self.ready_queue.sort(key=lambda j: j.task.period)`. -/
def Processor.sort_ready_queue (p : Processor) : Processor :=
  { p with ready_queue := sortKey (fun j => j.task.period) p.ready_queue }

/-- Mirrors `liu_layland_bound(n)` of `main.py`:
`1.0` for `n == 0`, otherwise `n * (math.pow(2, 1/n) - 1)`. -/
noncomputable def liu_layland_bound (n : ℕ) : ℝ :=
  if n = 0 then 1 else (n : ℝ) * ((2 : ℝ) ^ ((1 : ℝ) / (n : ℝ)) - 1)

/-- The admission test of `partition_tasks_ff_rm`: the condition
`(current_u + task.utilization) <= liu_layland_bound(new_n)` where
`new_n = len(proc.assigned_tasks) + 1`. -/
def fits (p : Processor) (t : Task) : Prop :=
  ((p.utilization + t.utilization : ℚ) : ℝ) ≤
    liu_layland_bound (p.assigned_tasks.length + 1)

open scoped Classical in
/-- The inner `for proc in processors` scan of `partition_tasks_ff_rm`:
give the task to the first processor passing the admission test
(`some` of the updated list) or report failure (`none`). -/
noncomputable def assignFirstFit (t : Task) : List Processor → Option (List Processor)
  | [] => none
  | p :: ps =>
      if fits p t then some (p.add_task t :: ps)
      else (assignFirstFit t ps).map (fun l => p :: l)

/-- One iteration of the outer `for task in sorted_tasks` loop of
`partition_tasks_ff_rm`: scan for a first fit, otherwise append
`Processor(len(processors))` holding only this task. -/
noncomputable def partitionStep (procs : List Processor) (t : Task) : List Processor :=
  match assignFirstFit t procs with
  | some procs2 => procs2
  | none => procs ++ [(Processor.init procs.length).add_task t]

/-- Mirrors `partition_tasks_ff_rm`: sort the tasks by period (stable)
and first-fit them starting from the single empty `Processor(0)`. -/
noncomputable def partition_tasks_ff_rm (tasks : List Task) : List Processor :=
  (sortKey (fun t => t.period) tasks).foldl partitionStep [Processor.init 0]

/-!  The discrete event simulation engine (`run_simulation`). -/

/-- The numeric tolerance `1e-9` used by the simulation loop. -/
def epsTol : ℚ := 1 / 1000000000

/-- Per-processor simulation record: the `Processor` object together with
its slice `task_next_arrival[proc]` of the arrival-time dictionary
(a `Task`-keyed insertion-ordered dict, hence an association list whose
keys are the distinct assigned tasks in first-occurrence order). -/
structure PSim where
  proc : Processor
  arrivals : List (Task × ℚ)
deriving DecidableEq, Repr

/-- Whole simulation state: the processors (with their arrival maps), the
clock `current_time` and the `job_counters` dictionary keyed by task id. -/
structure SimState where
  procs : List PSim
  current_time : ℚ
  counters : String → ℕ

/-- Minimum of a list of rationals, `none` playing the role of
`float('inf')` when the list is empty (mirrors the
`if arrival < next_arrival: next_arrival = arrival` accumulation). -/
def listMinQ (l : List ℚ) : Option ℚ :=
  l.foldl (fun acc x => match acc with
    | none => some x
    | some a => some (min a x)) none

/-- Combine two optional minima (`min(next_arrival, next_completion)`
with `none` standing for `float('inf')`). -/
def minOpt : Option ℚ → Option ℚ → Option ℚ
  | none, b => b
  | some a, none => some a
  | some a, some b => some (min a b)

/-- Step A, arrivals: the least pending arrival time over all
`(processor, task)` pairs. -/
def arrivalsMin (s : SimState) : Option ℚ :=
  listMinQ (s.procs.flatMap (fun ps => ps.arrivals.map (fun ta => ta.2)))

/-- Step A, completions: the least `current_time + remaining_time` over
processors with an active job. -/
def completionsMin (s : SimState) : Option ℚ :=
  listMinQ (s.procs.filterMap
    (fun ps => ps.proc.active_job.map
      (fun j => s.current_time + j.remaining_time)))

/-- The log append of Step B: extend the last log entry when it is
contiguous (`log[-1][1] == current_time`) and for the same task id,
otherwise append a fresh `(current_time, next_event_time, task_id)`. -/
def appendLog (log : List (ℚ × ℚ × String)) (t ne : ℚ) (tid : String) :
    List (ℚ × ℚ × String) :=
  match log.getLast? with
  | some last =>
      if last.2.2 = tid ∧ last.2.1 = t then
        log.dropLast ++ [(last.1, ne, last.2.2)]
      else log ++ [(t, ne, tid)]
  | none => log ++ [(t, ne, tid)]

/-- Step B for one processor: decrement the active job's remaining time
by `dt = ne - t` and record the executed interval. -/
def advanceProc (t ne : ℚ) (ps : PSim) : PSim :=
  match ps.proc.active_job with
  | none => ps
  | some a =>
      { ps with proc :=
        { ps.proc with
          active_job := some { a with remaining_time := a.remaining_time - (ne - t) },
          execution_log := appendLog ps.proc.execution_log t ne a.task.id } }

/-- Step B plus the clock update: advance only when `dt > 0`, then set
`current_time = next_event_time`. -/
def advancePhase (s : SimState) (ne : ℚ) : SimState :=
  if 0 < ne - s.current_time then
    { s with procs := s.procs.map (advanceProc s.current_time ne),
             current_time := ne }
  else { s with current_time := ne }

/-- Step C (completions) for one processor: an active job whose remaining
time is `≤ 1e-9` is marked completed and dropped from the slot. -/
def completeProc (ps : PSim) : PSim :=
  match ps.proc.active_job with
  | some a =>
      if a.remaining_time ≤ epsTol then
        { ps with proc := { ps.proc with active_job := none } }
      else ps
  | none => ps

/-- Step C over all processors. -/
def completionsPhase (s : SimState) : SimState :=
  { s with procs := s.procs.map completeProc }

/-- Bump the job counter of one task id. -/
def bumpCounter (c : String → ℕ) (k : String) : String → ℕ :=
  fun k2 => if k2 = k then c k + 1 else c k2

/-- The `Job(...)` constructor call of the arrival handler: job id from
`job_counters`, `remaining_time = execution_time`,
`absolute_deadline = current_time + period`. -/
def spawnJob (t : ℚ) (task : Task) (c : String → ℕ) : Job :=
  { task := task, id := c task.id, arrival_time := t,
    remaining_time := (task.execution_time : ℚ),
    absolute_deadline := t + (task.period : ℚ), completed := false }

/-- Step D (arrivals) over one processor's arrival map: each task whose
next arrival matches `current_time` within the tolerance spawns a job,
which is appended to the ready queue, and its next arrival advances by
one period.  Returns the new arrival map, the new counters and the new
ready queue. -/
def arriveList (t : ℚ) : List (Task × ℚ) → (String → ℕ) → List Job →
    List (Task × ℚ) × (String → ℕ) × List Job
  | [], c, q => ([], c, q)
  | (task, ar) :: rest, c, q =>
      if |ar - t| < epsTol then
        let res := arriveList t rest (bumpCounter c task.id)
          (q ++ [spawnJob t task c])
        ((task, ar + (task.period : ℚ)) :: res.1, res.2)
      else
        let res := arriveList t rest c q
        ((task, ar) :: res.1, res.2)

/-- One processor's slice of Step D, as the fold step over the processor
list (the accumulator carries the processed processors and the shared
`job_counters`). -/
def arriveStep (t : ℚ) (acc : List PSim × (String → ℕ)) (ps : PSim) :
    List PSim × (String → ℕ) :=
  let r := arriveList t ps.arrivals acc.2 ps.proc.ready_queue
  let ps2 : PSim :=
    { proc := { ps.proc with ready_queue := r.2.2 }, arrivals := r.1 }
  (acc.1 ++ [ps2], r.2.1)

/-- Step D over all processors, threading the shared `job_counters`. -/
def arrivalsPhase (s : SimState) : SimState :=
  let out := s.procs.foldl (arriveStep s.current_time)
    (([] : List PSim), s.counters)
  { s with procs := out.1, counters := out.2 }

/-- The preemption logic of Step E: demote the active job to the back of
the ready queue when some ready job has a strictly smaller period. -/
def demoteStep (p : Processor) : Processor :=
  match p.active_job with
  | some a =>
      if p.ready_queue.any (fun j => j.task.period < a.task.period) then
        { p with ready_queue := p.ready_queue ++ [a], active_job := none }
      else p
  | none => p

/-- The select logic of Step E: when the slot is free pop the queue head
into it. -/
def popHead (p : Processor) : Processor :=
  match p.active_job with
  | some _ => p
  | none =>
      match p.ready_queue with
      | [] => p
      | j :: rest => { p with active_job := some j, ready_queue := rest }

/-- Step E (dispatcher) for one processor: demote the active job when some
ready job has a strictly smaller period, re-sort the ready queue by
period, and when the slot is free pop the queue head into it. -/
def dispatchProc (p : Processor) : Processor :=
  popHead (demoteStep p).sort_ready_queue

/-- Step E over all processors. -/
def dispatchPhase (s : SimState) : SimState :=
  { s with procs := s.procs.map (fun ps => { ps with proc := dispatchProc ps.proc }) }

/-- All phases of the loop body after the event time is fixed. -/
def runPhases (s : SimState) (ne : ℚ) : SimState :=
  dispatchPhase (arrivalsPhase (completionsPhase (advancePhase s ne)))

/-- One iteration of the `while current_time < max_time` body:
compute the next event time (`none` = `float('inf')`), clamp it at
`max_time`, `break` (return `none`) when the clamped time equals the
clock, otherwise run the four phases. -/
def simStep (mt : ℚ) (s : SimState) : Option SimState :=
  match minOpt (arrivalsMin s) (completionsMin s) with
  | none =>
      if mt = s.current_time then none else some (runPhases s mt)
  | some e =>
      if mt < e then
        if mt = s.current_time then none else some (runPhases s mt)
      else some (runPhases s e)

/-- The `while` loop, fuel-indexed: stop when the fuel runs out, the guard
`current_time < max_time` fails, or the body breaks. -/
def simLoop (mt : ℚ) : ℕ → SimState → SimState
  | 0, s => s
  | fuel + 1, s =>
      if s.current_time < mt then
        match simStep mt s with
        | none => s
        | some s2 => simLoop mt fuel s2
      else s

/-- The initial `job_counters`: `{task.id: 1 for proc in processors for
task in proc.assigned_tasks}` (ids absent from every processor are never
looked up; they map to 0 here). -/
def initCounters (procs : List Processor) : String → ℕ :=
  procs.foldl
    (fun c p => p.assigned_tasks.foldl
      (fun c2 t => fun k => if k = t.id then 1 else c2 k) c)
    (fun _ => 0)

/-- The initial arrival dictionary of one processor:
`{task: 0.0 for task in proc.assigned_tasks}` — a `Task`-keyed dict, so
duplicate (equal) tasks collapse to a single key. -/
def initPSim (p : Processor) : PSim :=
  { proc := p, arrivals := p.assigned_tasks.dedup.map (fun t => (t, (0 : ℚ))) }

/-- The state at the top of `run_simulation` just before the loop. -/
def initState (procs : List Processor) : SimState :=
  { procs := procs.map initPSim, current_time := 0,
    counters := initCounters procs }

/-- Mirrors `run_simulation(processors, max_time)` (fuel-indexed loop);
returns the mutated processors. -/
def run_simulation (fuel : ℕ) (procs : List Processor) (max_time : ℤ) :
    List Processor :=
  (simLoop (max_time : ℚ) fuel (initState procs)).procs.map (fun ps => ps.proc)

/-!  Lemmas about the stable insertion sort. -/

theorem insertKey_perm {α : Type} (key : α → ℤ) (a : α) (l : List α) :
    (insertKey key a l).Perm (a :: l) := by
  induction l with
  | nil => exact List.Perm.refl _
  | cons b l ih =>
      by_cases h : key a ≤ key b
      · simp [insertKey, h]
      · simp only [insertKey, h, if_false]
        exact (ih.cons b).trans (List.Perm.swap a b l)

theorem mem_insertKey {α : Type} {key : α → ℤ} {a x : α} {l : List α} :
    x ∈ insertKey key a l ↔ x = a ∨ x ∈ l := by
  rw [(insertKey_perm key a l).mem_iff]
  simp

theorem sortKey_perm {α : Type} (key : α → ℤ) (l : List α) :
    (sortKey key l).Perm l := by
  induction l with
  | nil => exact List.Perm.refl _
  | cons a l ih => exact (insertKey_perm key a _).trans (ih.cons a)

theorem insertKey_pairwise {α : Type} {key : α → ℤ} {a : α} {l : List α}
    (h : l.Pairwise (fun x y => key x ≤ key y)) :
    (insertKey key a l).Pairwise (fun x y => key x ≤ key y) := by
  induction l with
  | nil => simp [insertKey]
  | cons b l ih =>
      rcases List.pairwise_cons.mp h with ⟨hb, hl⟩
      show List.Pairwise _ (if key a ≤ key b then a :: b :: l else b :: insertKey key a l)
      by_cases hab : key a ≤ key b
      · rw [if_pos hab]
        refine List.pairwise_cons.mpr ⟨?_, h⟩
        intro x hx
        rcases List.mem_cons.mp hx with rfl | hx
        · exact hab
        · exact le_trans hab (hb x hx)
      · rw [if_neg hab]
        refine List.pairwise_cons.mpr ⟨?_, ih hl⟩
        intro x hx
        rcases mem_insertKey.mp hx with rfl | hx
        · exact le_of_lt (lt_of_not_le hab)
        · exact hb x hx

theorem sortKey_pairwise {α : Type} (key : α → ℤ) (l : List α) :
    (sortKey key l).Pairwise (fun x y => key x ≤ key y) := by
  induction l with
  | nil => simp [sortKey]
  | cons a l ih => exact insertKey_pairwise ih

theorem insertKey_filter {α : Type} (key : α → ℤ) (a : α) (l : List α) (c : ℤ) :
    (insertKey key a l).filter (fun x => decide (key x = c)) =
      if key a = c then a :: l.filter (fun x => decide (key x = c))
      else l.filter (fun x => decide (key x = c)) := by
  induction l with
  | nil => by_cases h : key a = c <;> simp [insertKey, h]
  | cons b l ih =>
      show List.filter _ (if key a ≤ key b then a :: b :: l else b :: insertKey key a l) = _
      by_cases hab : key a ≤ key b
      · rw [if_pos hab]
        by_cases h : key a = c <;> simp [h, List.filter_cons]
      · rw [if_neg hab]
        have hba : key b < key a := lt_of_not_le hab
        by_cases h : key a = c
        · have hbc : ¬ key b = c := by
            intro hbc; exact absurd (hbc.trans h.symm) (ne_of_lt hba)
          rw [List.filter_cons, List.filter_cons, ih]
          simp [h, hbc]
        · rw [List.filter_cons, List.filter_cons, ih]
          simp [h]

theorem sortKey_filter {α : Type} (key : α → ℤ) (l : List α) (c : ℤ) :
    (sortKey key l).filter (fun x => decide (key x = c)) =
      l.filter (fun x => decide (key x = c)) := by
  induction l with
  | nil => simp [sortKey]
  | cons a l ih =>
      by_cases h : key a = c <;>
        simp [sortKey, insertKey_filter, h, List.filter_cons, ih]

/-!  Lemmas about the first-fit partitioner. -/

theorem assignFirstFit_none {t : Task} {procs : List Processor}
    (h : ∀ p ∈ procs, ¬ fits p t) : assignFirstFit t procs = none := by
  induction procs with
  | nil => rfl
  | cons p ps ih =>
      have hp : ¬ fits p t := h p (List.mem_cons_self p ps)
      rw [assignFirstFit, if_neg hp, ih (fun q hq => h q (List.mem_cons_of_mem p hq))]
      rfl

theorem assignFirstFit_some {t : Task} {procs : List Processor} {i : ℕ}
    (hi : i < procs.length) (hfit : fits procs[i] t)
    (hleast : ∀ j (hj : j < procs.length), j < i → ¬ fits procs[j] t) :
    assignFirstFit t procs =
      some (procs.take i ++ procs[i].add_task t :: procs.drop (i + 1)) := by
  induction procs generalizing i with
  | nil => exact absurd hi (Nat.not_lt_zero i)
  | cons p ps ih =>
      cases i with
      | zero =>
          simp only [List.getElem_cons_zero] at hfit
          rw [assignFirstFit, if_pos hfit]
          simp
      | succ k =>
          have hp : ¬ fits p t := by
            have := hleast 0 (Nat.succ_pos _) (Nat.succ_pos k)
            simpa using this
          rw [assignFirstFit, if_neg hp]
          have hk : k < ps.length := Nat.lt_of_succ_lt_succ hi
          have hfit2 : fits ps[k] t := by
            simpa using hfit
          have hleast2 : ∀ j (hj : j < ps.length), j < k → ¬ fits ps[j] t := by
            intro j hj hjk
            have := hleast (j + 1) (Nat.succ_lt_succ hj) (Nat.succ_lt_succ hjk)
            simpa using this
          rw [ih hk hfit2 hleast2]
          simp

theorem partitionStep_none {t : Task} {procs : List Processor}
    (h : ∀ p ∈ procs, ¬ fits p t) :
    partitionStep procs t = procs ++ [(Processor.init procs.length).add_task t] := by
  rw [partitionStep, assignFirstFit_none h]

theorem partitionStep_some {t : Task} {procs : List Processor} {i : ℕ}
    (hi : i < procs.length) (hfit : fits procs[i] t)
    (hleast : ∀ j (hj : j < procs.length), j < i → ¬ fits procs[j] t) :
    partitionStep procs t =
      procs.take i ++ procs[i].add_task t :: procs.drop (i + 1) := by
  rw [partitionStep, assignFirstFit_some hi hfit hleast]

theorem assignFirstFit_perm {t : Task} {procs procs2 : List Processor}
    (h : assignFirstFit t procs = some procs2) :
    (procs2.flatMap (fun p => p.assigned_tasks)).Perm
      (t :: procs.flatMap (fun p => p.assigned_tasks)) := by
  induction procs generalizing procs2 with
  | nil => exact absurd h (by simp [assignFirstFit])
  | cons p ps ih =>
      rw [assignFirstFit] at h
      by_cases hp : fits p t
      · rw [if_pos hp] at h
        cases h
        simp only [List.flatMap_cons, Processor.add_task]
        have h1 : (p.assigned_tasks ++ [t]) ++ ps.flatMap (fun q => q.assigned_tasks)
            = p.assigned_tasks ++ t :: ps.flatMap (fun q => q.assigned_tasks) := by
          simp
        rw [h1]
        exact List.perm_middle
      · rw [if_neg hp] at h
        rcases Option.map_eq_some'.mp h with ⟨r, hr, rfl⟩
        simp only [List.flatMap_cons]
        exact ((ih hr).append_left p.assigned_tasks).trans List.perm_middle

theorem partitionStep_perm (procs : List Processor) (t : Task) :
    ((partitionStep procs t).flatMap (fun p => p.assigned_tasks)).Perm
      (t :: procs.flatMap (fun p => p.assigned_tasks)) := by
  rw [partitionStep]
  cases h : assignFirstFit t procs with
  | some r => exact assignFirstFit_perm h
  | none =>
      simp only [List.flatMap_append, List.flatMap_cons, Processor.add_task,
        Processor.init, List.flatMap_nil]
      exact List.perm_append_singleton t
        (procs.flatMap (fun p => p.assigned_tasks))

theorem foldl_partitionStep_perm (ts : List Task) (procs : List Processor) :
    ((ts.foldl partitionStep procs).flatMap (fun p => p.assigned_tasks)).Perm
      (ts ++ procs.flatMap (fun p => p.assigned_tasks)) := by
  induction ts generalizing procs with
  | nil => simp
  | cons t ts ih =>
      have h1 := ih (partitionStep procs t)
      have h2 := (partitionStep_perm procs t).append_left ts
      exact (List.foldl_cons _ _ ▸ (h1.trans h2)).trans List.perm_middle

theorem partition_perm (ts : List Task) :
    ((partition_tasks_ff_rm ts).flatMap (fun p => p.assigned_tasks)).Perm ts := by
  have h1 := foldl_partitionStep_perm (sortKey (fun t => t.period) ts)
    [Processor.init 0]
  have h2 : ([Processor.init 0].flatMap (fun p => p.assigned_tasks)) = [] := rfl
  rw [h2, List.append_nil] at h1
  exact h1.trans (sortKey_perm _ ts)

theorem liu_layland_bound_one : liu_layland_bound 1 = 1 := by
  rw [liu_layland_bound]
  norm_num

/-- C1 (counterexample): the claim says `partition_tasks_ff_rm` returns an
empty list of processors on the empty input; in fact the source starts
with `processors = [Processor(0)]` and returns that single empty
processor unchanged. -/
theorem claim_C1_counterexample :
    partition_tasks_ff_rm [] ≠ [] ∧
      partition_tasks_ff_rm [] = [Processor.init 0] := by
  constructor
  · intro h
    have : ([] : List Task).foldl partitionStep [Processor.init 0] = [] := h
    simp [sortKey] at this
  · simp [partition_tasks_ff_rm, sortKey]

/-- C1 (amended): partitioning the empty task set yields exactly one
processor, `Processor(0)`, with no assigned tasks, an empty ready queue
and an empty log; it is not the empty processor list. -/
theorem claim_C1 :
    partition_tasks_ff_rm [] = [Processor.init 0] ∧
      (partition_tasks_ff_rm []).length = 1 := by
  constructor
  · simp [partition_tasks_ff_rm, sortKey]
  · simp [partition_tasks_ff_rm, sortKey]

/-- C6: the concatenation of `assigned_tasks` over the processors returned
by `partition_tasks_ff_rm` is a permutation of the input task list (no
task dropped, none duplicated), and for duplicate-free input the
assigned-task lists are pairwise disjoint and individually
duplicate-free, so every input task lands on exactly one processor. -/
theorem claim_C6 (ts : List Task) (h : ts.Nodup) :
    ((partition_tasks_ff_rm ts).flatMap (fun p => p.assigned_tasks)).Perm ts ∧
    (partition_tasks_ff_rm ts).Pairwise
      (fun p q => ∀ x, x ∈ p.assigned_tasks → x ∉ q.assigned_tasks) ∧
    ∀ p ∈ partition_tasks_ff_rm ts, p.assigned_tasks.Nodup := by
  have hperm := partition_perm ts
  have hnodup : ((partition_tasks_ff_rm ts).flatMap
      (fun p => p.assigned_tasks)).Nodup := hperm.nodup_iff.mpr h
  rcases List.nodup_flatMap.mp hnodup with ⟨hn, hd⟩
  refine ⟨hperm, ?_, hn⟩
  refine hd.imp ?_
  intro p q hpq x hx
  exact hpq hx

/-- Concrete instance for C6: the task set of the repository's main
scenario. -/
def tsMain : List Task :=
  [{ id := "T1", period := 2, execution_time := 1 },
   { id := "T2", period := 5, execution_time := 2 },
   { id := "T3", period := 4, execution_time := 2 }]

/-- C6 witness at the main scenario's task set. -/
theorem claim_C6_witness :
    ((partition_tasks_ff_rm tsMain).flatMap (fun p => p.assigned_tasks)).Perm
        tsMain ∧
    (partition_tasks_ff_rm tsMain).Pairwise
      (fun p q => ∀ x, x ∈ p.assigned_tasks → x ∉ q.assigned_tasks) ∧
    ∀ p ∈ partition_tasks_ff_rm tsMain, p.assigned_tasks.Nodup :=
  claim_C6 tsMain (by decide)

/-- C7: `partition_tasks_ff_rm` folds over the input sorted ascending by
period (a stable sort: the relative order of equal-period tasks is
preserved), and each step gives the task to the first processor, in
list order, whose utilization plus the task's utilization is at most
`liu_layland_bound` of the post-insertion task count; when no processor
qualifies a new processor whose id is the current processor count is
appended holding only that task. -/
theorem claim_C7 :
    (∀ ts : List Task, partition_tasks_ff_rm ts =
      (sortKey (fun t => t.period) ts).foldl partitionStep [Processor.init 0]) ∧
    (∀ ts : List Task, (sortKey (fun t => t.period) ts).Pairwise
      (fun a b => a.period ≤ b.period)) ∧
    (∀ (ts : List Task) (c : ℤ), (sortKey (fun t => t.period) ts).filter
        (fun t => decide (t.period = c)) =
      ts.filter (fun t => decide (t.period = c))) ∧
    (∀ (procs : List Processor) (t : Task) (i : ℕ) (hi : i < procs.length),
      fits procs[i] t →
      (∀ j (hj : j < procs.length), j < i → ¬ fits procs[j] t) →
      partitionStep procs t =
        procs.take i ++ procs[i].add_task t :: procs.drop (i + 1)) ∧
    (∀ (procs : List Processor) (t : Task), (∀ p ∈ procs, ¬ fits p t) →
      partitionStep procs t =
        procs ++ [{ id := procs.length, assigned_tasks := [t],
                    active_job := none, ready_queue := [],
                    execution_log := [] }]) := by
  refine ⟨fun ts => rfl, fun ts => sortKey_pairwise _ ts,
    fun ts c => sortKey_filter _ ts c,
    fun procs t i hi hfit hleast => partitionStep_some hi hfit hleast,
    fun procs t h => ?_⟩
  rw [partitionStep_none h]
  rfl

/-- C7 witness: a task of utilization 1/2 fits the empty `Processor(0)`
(conjunct on first fit, at index 0), and with no processors at all a new
`Processor(0)` holding only the task is appended. -/
theorem claim_C7_witness :
    partitionStep [Processor.init 0] { id := "A", period := 2, execution_time := 1 } =
      [(Processor.init 0).add_task { id := "A", period := 2, execution_time := 1 }] ∧
    partitionStep [] { id := "A", period := 2, execution_time := 1 } =
      [{ id := 0, assigned_tasks := [{ id := "A", period := 2, execution_time := 1 }],
         active_job := none, ready_queue := [], execution_log := [] }] := by
  have hfit : fits (Processor.init 0) { id := "A", period := 2, execution_time := 1 } := by
    rw [fits]
    simp only [Processor.init, List.length_nil, Nat.zero_add]
    rw [liu_layland_bound_one]
    norm_num [Processor.utilization, Task.utilization]
  constructor
  · have h := claim_C7.2.2.2.1 [Processor.init 0]
      { id := "A", period := 2, execution_time := 1 } 0 (by simp) (by simpa using hfit)
      (by intro j hj hj0; exact absurd hj0 (Nat.not_lt_zero j))
    simpa using h
  · have h := claim_C7.2.2.2.2 []
      { id := "A", period := 2, execution_time := 1 } (by intro p hp; cases hp)
    simpa using h

/-- C8: the admission-test formula — `liu_layland_bound 0 = 1` and for
every positive `n` the value is `n * (2 ^ (1/n) - 1)` (a pure function;
the embedding is total, so there are no side effects or errors). -/
theorem claim_C8 :
    liu_layland_bound 0 = 1 ∧
    ∀ n : ℕ, 0 < n →
      liu_layland_bound n = (n : ℝ) * ((2 : ℝ) ^ ((1 : ℝ) / (n : ℝ)) - 1) := by
  constructor
  · rfl
  · intro n hn
    rw [liu_layland_bound, if_neg (Nat.pos_iff_ne_zero.mp hn)]

/-- C8 witness at `n = 0` and `n = 3`. -/
theorem claim_C8_witness :
    liu_layland_bound 0 = 1 ∧
      liu_layland_bound 3 = (3 : ℝ) * ((2 : ℝ) ^ ((1 : ℝ) / (3 : ℝ)) - 1) := by
  refine ⟨claim_C8.1, ?_⟩
  have h := claim_C8.2 3 (by decide)
  simpa using h

/-- `liu_layland_bound n` for positive `n`, written as `log 2` times the
slope of the secant of `exp` from `0` to `log 2 / n`. -/
theorem liu_layland_eq_slope {n : ℕ} (hn : 0 < n) :
    liu_layland_bound n = Real.log 2 * slope Real.exp 0 (Real.log 2 / n) := by
  have hn0 : (n : ℝ) ≠ 0 := Nat.cast_ne_zero.mpr (Nat.pos_iff_ne_zero.mp hn)
  have hlog : Real.log 2 ≠ 0 := ne_of_gt (Real.log_pos one_lt_two)
  rw [liu_layland_bound, if_neg (Nat.pos_iff_ne_zero.mp hn), slope_def_field,
    Real.exp_zero, sub_zero, Real.rpow_def_of_pos (by norm_num : (0:ℝ) < 2),
    mul_one_div]
  field_simp
  ring

/-- C9: `liu_layland_bound 1 = 1`; the bound strictly decreases on
`n ≥ 1`; it converges to `log 2`; and `log 2` is within `10⁻³` of
`0.693`. -/
theorem claim_C9 :
    liu_layland_bound 1 = 1 ∧
    (∀ n : ℕ, 1 ≤ n → liu_layland_bound (n + 1) < liu_layland_bound n) ∧
    Filter.Tendsto (fun n : ℕ => liu_layland_bound n) Filter.atTop
      (nhds (Real.log 2)) ∧
    |Real.log 2 - 0.693| < 1 / 1000 := by
  have hlogpos : 0 < Real.log 2 := Real.log_pos one_lt_two
  refine ⟨liu_layland_bound_one, ?_, ?_, ?_⟩
  · intro n hn
    have hn0 : 0 < n := hn
    have hnR : (0:ℝ) < n := by exact_mod_cast hn0
    have hn1R : (0:ℝ) < (n:ℝ) + 1 := by positivity
    have hxpos : (0:ℝ) < Real.log 2 / n := div_pos hlogpos hnR
    have hypos : (0:ℝ) < Real.log 2 / ((n:ℝ) + 1) := div_pos hlogpos hn1R
    have hlt : Real.log 2 / ((n:ℝ) + 1) < Real.log 2 / n :=
      div_lt_div_of_pos_left hlogpos hnR (by linarith)
    have hsec := strictConvexOn_exp.secant_strict_mono (Set.mem_univ (0:ℝ))
      (Set.mem_univ _) (Set.mem_univ _) (ne_of_gt hypos) (ne_of_gt hxpos) hlt
    rw [liu_layland_eq_slope hn0, liu_layland_eq_slope (Nat.succ_pos n)]
    apply mul_lt_mul_of_pos_left _ hlogpos
    rw [slope_def_field, slope_def_field]
    push_cast
    simpa using hsec
  · have h0 : Filter.Tendsto (fun n : ℕ => Real.log 2 / (n:ℝ)) Filter.atTop
        (nhds 0) :=
      Filter.Tendsto.div_atTop tendsto_const_nhds tendsto_natCast_atTop_atTop
    have hmem : ∀ᶠ n : ℕ in Filter.atTop,
        Real.log 2 / (n:ℝ) ∈ {x : ℝ | x ≠ 0} := by
      filter_upwards [Filter.eventually_ge_atTop 1] with n hn
      have hnR : (0:ℝ) < n := by exact_mod_cast hn
      exact ne_of_gt (div_pos hlogpos hnR)
    have h1 : Filter.Tendsto (fun n : ℕ => Real.log 2 / (n:ℝ)) Filter.atTop
        (nhdsWithin 0 {x : ℝ | x ≠ 0}) :=
      tendsto_nhdsWithin_of_tendsto_nhds_of_eventually_within _ h0 hmem
    have hderiv : HasDerivAt Real.exp 1 0 := by
      simpa using Real.hasDerivAt_exp 0
    have hslope := hasDerivAt_iff_tendsto_slope.mp hderiv
    have h2 : Filter.Tendsto
        (fun n : ℕ => slope Real.exp 0 (Real.log 2 / (n:ℝ))) Filter.atTop
        (nhds 1) := hslope.comp h1
    have h3 := h2.const_mul (Real.log 2)
    rw [mul_one] at h3
    refine h3.congr' ?_
    filter_upwards [Filter.eventually_ge_atTop 1] with n hn
    exact (liu_layland_eq_slope hn).symm
  · have h1 := Real.log_two_gt_d9
    have h2 := Real.log_two_lt_d9
    rw [abs_sub_lt_iff]
    constructor <;> linarith

/-- C9 witness: strict decrease at `n = 1`. -/
theorem claim_C9_witness :
    liu_layland_bound 2 < liu_layland_bound 1 := by
  have h := claim_C9.2.1 1 (by decide)
  simpa using h

/-!  Lemmas about the dispatcher. -/

theorem mem_sortKey {α : Type} {key : α → ℤ} {x : α} {l : List α} :
    x ∈ sortKey key l ↔ x ∈ l :=
  (sortKey_perm key l).mem_iff

theorem sortKey_head_le {α : Type} {key : α → ℤ} {q : List α} {j : α}
    {rest : List α} (h : sortKey key q = j :: rest) :
    ∀ x ∈ rest, key j ≤ key x := by
  have hp := sortKey_pairwise key q
  rw [h] at hp
  exact (List.pairwise_cons.mp hp).1

theorem demoteStep_eq_self {p : Processor} {a : Job}
    (ha : p.active_job = some a)
    (hany : p.ready_queue.any (fun j => j.task.period < a.task.period) = false) :
    demoteStep p = p := by
  simp [demoteStep, ha, hany]

theorem demoteStep_active {p : Processor} {a : Job}
    (h : (demoteStep p).active_job = some a) :
    p.active_job = some a ∧
      p.ready_queue.any (fun j => j.task.period < a.task.period) = false := by
  cases hact : p.active_job with
  | none =>
      simp only [demoteStep, hact] at h
      cases h
  | some b =>
      simp only [demoteStep, hact] at h
      by_cases hany : p.ready_queue.any (fun j => j.task.period < b.task.period) = true
      · rw [if_pos hany] at h
        simp at h
      · rw [if_neg hany] at h
        rw [hact] at h
        have hba : b = a := by injection h
        subst hba
        exact ⟨rfl, Bool.eq_false_iff.mpr hany⟩

theorem dispatchProc_no_higher (p : Processor) :
    ∀ a, (dispatchProc p).active_job = some a →
      ∀ j ∈ (dispatchProc p).ready_queue, ¬ j.task.period < a.task.period := by
  intro a ha j hj
  rw [dispatchProc] at ha hj
  cases hact : (demoteStep p).sort_ready_queue.active_job with
  | some a0 =>
      simp only [popHead, hact] at ha hj
      have ha0 : a0 = a := by injection ha
      subst ha0
      have hda : (demoteStep p).active_job = some a0 := hact
      obtain ⟨hpa, hany⟩ := demoteStep_active hda
      have hps : demoteStep p = p := demoteStep_eq_self hpa hany
      have hjq : j ∈ p.ready_queue := by
        have h3 : j ∈ sortKey (fun j => j.task.period) (demoteStep p).ready_queue := hj
        rw [hps] at h3
        exact mem_sortKey.mp h3
      have h4 := List.any_eq_false.mp hany j hjq
      simpa using h4
  | none =>
      cases hrq : (demoteStep p).sort_ready_queue.ready_queue with
      | nil =>
          simp only [popHead, hact, hrq] at ha
          exact Option.noConfusion ha
      | cons m rest =>
          simp only [popHead, hact, hrq, Option.some.injEq] at ha hj
          have hrq2 : sortKey (fun j => j.task.period)
              (demoteStep p).ready_queue = m :: rest := hrq
          rw [← ha]
          exact not_lt.mpr (sortKey_head_le hrq2 j hj)

theorem dispatchProc_keeps_incumbent {p : Processor} {a : Job}
    (ha : p.active_job = some a)
    (hno : ∀ j ∈ p.ready_queue, ¬ j.task.period < a.task.period) :
    (dispatchProc p).active_job = some a := by
  have hany : p.ready_queue.any (fun j => j.task.period < a.task.period) = false := by
    rw [List.any_eq_false]
    intro x hx
    simpa using hno x hx
  rw [dispatchProc, demoteStep_eq_self ha hany]
  have h2 : p.sort_ready_queue.active_job = some a := ha
  simp only [popHead, h2]

theorem simStep_some_shape {mt : ℚ} {s s2 : SimState}
    (h : simStep mt s = some s2) : ∃ ne, s2 = runPhases s ne := by
  rw [simStep] at h
  cases hmin : minOpt (arrivalsMin s) (completionsMin s) with
  | none =>
      simp only [hmin] at h
      by_cases hc : mt = s.current_time
      · rw [if_pos hc] at h; cases h
      · rw [if_neg hc] at h
        exact ⟨mt, (Option.some.inj h).symm⟩
  | some e =>
      simp only [hmin] at h
      by_cases h1 : mt < e
      · rw [if_pos h1] at h
        by_cases hc : mt = s.current_time
        · rw [if_pos hc] at h; cases h
        · rw [if_neg hc] at h
          exact ⟨mt, (Option.some.inj h).symm⟩
      · rw [if_neg h1] at h
        exact ⟨e, (Option.some.inj h).symm⟩

/-- C2: the dispatcher's zero-delay preemption invariant.  A processor has
at most one active job (the `active_job` slot); after the dispatch phase
no ready job has a strictly smaller period than the active job's task;
an incumbent whose period is not strictly beaten (in particular under
equal-period ties) is never displaced; and after the dispatch phase of
any non-breaking event step every processor satisfies the no-smaller-
period property. -/
theorem claim_C2 :
    (∀ p : Processor, (dispatchProc p).active_job.toList.length ≤ 1) ∧
    (∀ (p : Processor) (a : Job), (dispatchProc p).active_job = some a →
      ∀ j ∈ (dispatchProc p).ready_queue, ¬ j.task.period < a.task.period) ∧
    (∀ (p : Processor) (a : Job), p.active_job = some a →
      (∀ j ∈ p.ready_queue, ¬ j.task.period < a.task.period) →
      (dispatchProc p).active_job = some a) ∧
    (∀ (mt : ℚ) (s s2 : SimState), simStep mt s = some s2 →
      ∀ ps ∈ s2.procs, ∀ a, ps.proc.active_job = some a →
        ∀ j ∈ ps.proc.ready_queue, ¬ j.task.period < a.task.period) := by
  refine ⟨?_, ?_, ?_, ?_⟩
  · intro p
    cases h : (dispatchProc p).active_job <;> simp [Option.toList, h]
  · exact fun p a => dispatchProc_no_higher p a
  · exact fun p a ha hno => dispatchProc_keeps_incumbent ha hno
  · intro mt s s2 h ps hps a ha j hj
    obtain ⟨ne, rfl⟩ := simStep_some_shape h
    rw [runPhases, dispatchPhase] at hps
    simp only [List.mem_map] at hps
    obtain ⟨q, hq, rfl⟩ := hps
    exact dispatchProc_no_higher q.proc a ha j hj

/-- Concrete data for the C2 witness: one task of period 5 with an active
first job and an equal-period second job waiting in the ready queue. -/
def taskW : Task := { id := "W", period := 5, execution_time := 2 }

/-- Active incumbent job of `taskW`. -/
def jobW1 : Job :=
  { task := taskW, id := 1, arrival_time := 0, remaining_time := 2,
    absolute_deadline := 5, completed := false }

/-- Later, equal-period job of `taskW`. -/
def jobW2 : Job :=
  { task := taskW, id := 2, arrival_time := 5, remaining_time := 2,
    absolute_deadline := 10, completed := false }

/-- Processor holding `jobW1` active with `jobW2` ready. -/
def procW : Processor :=
  { id := 0, assigned_tasks := [taskW], active_job := some jobW1,
    ready_queue := [jobW2], execution_log := [] }

/-- Empty simulation state for the C2 witness. -/
def stateW : SimState :=
  { procs := [], current_time := 0, counters := fun _ => 0 }

/-- C2 witness: the equal-period candidate `jobW2` does not displace the
incumbent `jobW1`, and the dispatch-phase property holds after a
concrete event step. -/
theorem claim_C2_witness :
    (dispatchProc procW).active_job = some jobW1 ∧
    (∀ ps ∈ (runPhases stateW 1).procs, ∀ a, ps.proc.active_job = some a →
      ∀ j ∈ ps.proc.ready_queue, ¬ j.task.period < a.task.period) := by
  constructor
  · apply claim_C2.2.2.1 procW jobW1 rfl
    intro j hj
    have hj2 : j = jobW2 := List.mem_singleton.mp hj
    subst hj2
    decide
  · intro ps hps a ha j hj
    refine claim_C2.2.2.2 1 stateW (runPhases stateW 1) ?_ ps hps a ha j hj
    norm_num [simStep, arrivalsMin, completionsMin, listMinQ, minOpt, stateW]

/-!  Lemmas about list minima (`listMinQ`, `minOpt`). -/

theorem foldl_min_comm (l : List ℚ) : ∀ a b : ℚ,
    l.foldl min (min a b) = min a (l.foldl min b) := by
  induction l with
  | nil => intro a b; rfl
  | cons x l ih =>
      intro a b
      show l.foldl min (min (min a b) x) = min a (l.foldl min (min b x))
      rw [min_assoc, ih]

theorem foldl_min_le_init (l : List ℚ) (a : ℚ) : l.foldl min a ≤ a := by
  induction l generalizing a with
  | nil => exact le_refl a
  | cons x l ih =>
      show l.foldl min (min a x) ≤ a
      exact le_trans (ih (min a x)) (min_le_left a x)

theorem foldl_min_le_mem (l : List ℚ) (a : ℚ) :
    ∀ x ∈ l, l.foldl min a ≤ x := by
  induction l generalizing a with
  | nil => intro x hx; cases hx
  | cons y l ih =>
      intro x hx
      rcases List.mem_cons.mp hx with rfl | hx
      · exact le_trans (foldl_min_le_init l (min a x)) (min_le_right a x)
      · exact ih (min a y) x hx

theorem le_foldl_min (l : List ℚ) (a c : ℚ) (ha : c ≤ a)
    (hl : ∀ x ∈ l, c ≤ x) : c ≤ l.foldl min a := by
  induction l generalizing a with
  | nil => exact ha
  | cons x l ih =>
      show c ≤ l.foldl min (min a x)
      exact ih (min a x) (le_min ha (hl x (List.mem_cons_self x l)))
        (fun y hy => hl y (List.mem_cons_of_mem x hy))

theorem listMinQ_aux (l : List ℚ) : ∀ a : ℚ,
    l.foldl (fun acc x => match acc with
      | none => some x
      | some a => some (min a x)) (some a) = some (l.foldl min a) := by
  induction l with
  | nil => intro a; rfl
  | cons x l ih => intro a; exact ih (min a x)

theorem listMinQ_cons (x : ℚ) (l : List ℚ) :
    listMinQ (x :: l) = some (l.foldl min x) := by
  rw [listMinQ]
  exact listMinQ_aux l x

theorem listMinQ_eq_none {l : List ℚ} (h : listMinQ l = none) : l = [] := by
  cases l with
  | nil => rfl
  | cons x l => rw [listMinQ_cons] at h; cases h

theorem listMinQ_le {l : List ℚ} {m : ℚ} (h : listMinQ l = some m) :
    ∀ x ∈ l, m ≤ x := by
  cases l with
  | nil => intro x hx; cases hx
  | cons y l =>
      rw [listMinQ_cons] at h
      obtain rfl : l.foldl min y = m := by injection h
      intro x hx
      rcases List.mem_cons.mp hx with rfl | hx
      · exact foldl_min_le_init l x
      · exact foldl_min_le_mem l y x hx

theorem le_listMinQ {l : List ℚ} {m c : ℚ} (h : listMinQ l = some m)
    (hc : ∀ x ∈ l, c ≤ x) : c ≤ m := by
  cases l with
  | nil => cases h
  | cons y l =>
      rw [listMinQ_cons] at h
      obtain rfl : l.foldl min y = m := by injection h
      exact le_foldl_min l y c (hc y (List.mem_cons_self y l))
        (fun x hx => hc x (List.mem_cons_of_mem y hx))

theorem minOpt_listMinQ_append (l1 l2 : List ℚ) :
    minOpt (listMinQ l1) (listMinQ l2) = listMinQ (l1 ++ l2) := by
  cases l1 with
  | nil =>
      rw [listMinQ, List.foldl_nil, List.nil_append]
      rfl
  | cons x r1 =>
      rw [listMinQ_cons]
      cases l2 with
      | nil =>
          rw [List.append_nil, listMinQ_cons]
          rfl
      | cons y r2 =>
          rw [listMinQ_cons]
          show some (min (r1.foldl min x) (r2.foldl min y)) = _
          rw [List.cons_append, listMinQ_cons, List.foldl_append,
            List.foldl_cons, foldl_min_comm]

/-!  The simulation invariant for C3 and C4. -/

/-- Relation between consecutive log entries: the earlier entry ends no
later than the later one starts, and contiguous (`end = start`) entries
never share a task id (they would have been merged). -/
def logRel (a b : ℚ × ℚ × String) : Prop :=
  a.2.1 ≤ b.1 ∧ ¬ (a.2.1 = b.1 ∧ a.2.2 = b.2.2)

/-- Well-formed execution log: positive-length entries chained by
`logRel`. -/
def LogOK (log : List (ℚ × ℚ × String)) : Prop :=
  (∀ e ∈ log, e.1 < e.2.1) ∧ List.Chain' logRel log

/-- All entries of the log end no later than `t`. -/
def logEndsLE (log : List (ℚ × ℚ × String)) (t : ℚ) : Prop :=
  ∀ e ∈ log, e.2.1 ≤ t

theorem appendLog_ok {log : List (ℚ × ℚ × String)} {t ne : ℚ} {tid : String}
    (hok : LogOK log) (hends : logEndsLE log t) (htne : t < ne) :
    LogOK (appendLog log t ne tid) ∧ logEndsLE (appendLog log t ne tid) ne := by
  rcases List.eq_nil_or_concat log with rfl | ⟨l, last, hlog⟩
  · refine ⟨⟨?_, ?_⟩, ?_⟩
    · intro e he
      simp only [appendLog, List.getLast?_nil, List.nil_append,
        List.mem_singleton] at he
      subst he
      exact htne
    · simp [appendLog]
    · intro e he
      simp only [appendLog, List.getLast?_nil, List.nil_append,
        List.mem_singleton] at he
      subst he
      exact le_refl ne
  · rw [List.concat_eq_append] at hlog
    subst hlog
    have hlast : last ∈ l ++ [last] := List.mem_append_right l (List.mem_singleton.mpr rfl)
    simp only [appendLog, List.getLast?_concat]
    rcases List.chain'_append.mp hok.2 with ⟨hcl, hcs, hlink⟩
    by_cases hm : last.2.2 = tid ∧ last.2.1 = t
    · rw [if_pos hm, List.dropLast_concat]
      refine ⟨⟨?_, ?_⟩, ?_⟩
      · intro e he
        rcases List.mem_append.mp he with he | he
        · exact hok.1 e (List.mem_append_left _ he)
        · rw [List.mem_singleton.mp he]
          show last.1 < ne
          exact lt_trans (lt_of_lt_of_le (hok.1 last hlast) (le_of_eq hm.2)) htne
      · rw [List.chain'_append]
        refine ⟨hcl, List.chain'_singleton _, ?_⟩
        intro x hx y hy
        rw [List.head?_cons, Option.mem_some_iff] at hy
        subst hy
        exact hlink x hx last (by rw [List.head?_cons, Option.mem_some_iff])
      · intro e he
        rcases List.mem_append.mp he with he | he
        · exact le_trans (hends e (List.mem_append_left _ he)) (le_of_lt htne)
        · rw [List.mem_singleton.mp he]
    · rw [if_neg hm]
      refine ⟨⟨?_, ?_⟩, ?_⟩
      · intro e he
        rcases List.mem_append.mp he with he | he
        · exact hok.1 e he
        · rw [List.mem_singleton.mp he]
          exact htne
      · rw [List.chain'_append]
        refine ⟨hok.2, List.chain'_singleton _, ?_⟩
        intro x hx y hy
        rw [List.getLast?_concat, Option.mem_some_iff] at hx
        rw [List.head?_cons, Option.mem_some_iff] at hy
        subst hx
        subst hy
        refine ⟨hends last hlast, ?_⟩
        intro hc
        exact hm ⟨hc.2, hc.1⟩
      · intro e he
        rcases List.mem_append.mp he with he | he
        · exact le_trans (hends e he) (le_of_lt htne)
        · rw [List.mem_singleton.mp he]

/-- The per-processor simulation invariant at clock time `t`. -/
def PSimInv (t : ℚ) (ps : PSim) : Prop :=
  LogOK ps.proc.execution_log ∧
  logEndsLE ps.proc.execution_log t ∧
  (∀ ta ∈ ps.arrivals, t ≤ ta.2 ∧ 0 < ta.1.period ∧ 0 < ta.1.execution_time) ∧
  (∀ a, ps.proc.active_job = some a → 0 ≤ a.remaining_time) ∧
  (∀ j ∈ ps.proc.ready_queue, 0 ≤ j.remaining_time)

/-- The whole-state simulation invariant. -/
def SimInv (s : SimState) : Prop :=
  ∀ ps ∈ s.procs, PSimInv s.current_time ps

theorem advanceProc_inv {t ne : ℚ} {ps : PSim} (hinv : PSimInv t ps)
    (htne : t < ne)
    (hcomp : ∀ a, ps.proc.active_job = some a → ne ≤ t + a.remaining_time)
    (harr2 : ∀ ta ∈ ps.arrivals, ne ≤ ta.2) :
    PSimInv ne (advanceProc t ne ps) := by
  obtain ⟨hlog, hends, harr, hact, hq⟩ := hinv
  cases hja : ps.proc.active_job with
  | none =>
      simp only [advanceProc, hja]
      refine ⟨hlog, fun e he => le_trans (hends e he) (le_of_lt htne),
        fun ta hta => ⟨harr2 ta hta, (harr ta hta).2.1, (harr ta hta).2.2⟩,
        ?_, hq⟩
      intro a ha
      rw [hja] at ha
      cases ha
  | some a0 =>
      simp only [advanceProc, hja]
      obtain ⟨hok2, hends2⟩ := appendLog_ok hlog hends htne
      refine ⟨hok2, hends2,
        fun ta hta => ⟨harr2 ta hta, (harr ta hta).2.1, (harr ta hta).2.2⟩,
        ?_, hq⟩
      intro a ha
      simp only [Option.some.injEq] at ha
      rw [← ha]
      have hc := hcomp a0 hja
      show (0:ℚ) ≤ a0.remaining_time - (ne - t)
      linarith

theorem advancePhase_inv {s : SimState} {ne : ℚ} (hinv : SimInv s)
    (hne : s.current_time ≤ ne)
    (hcomp : ∀ ps ∈ s.procs, ∀ a, ps.proc.active_job = some a →
      ne ≤ s.current_time + a.remaining_time)
    (harr2 : ∀ ps ∈ s.procs, ∀ ta ∈ ps.arrivals, ne ≤ ta.2) :
    SimInv (advancePhase s ne) := by
  rw [advancePhase]
  by_cases hdt : 0 < ne - s.current_time
  · rw [if_pos hdt]
    intro ps hps
    simp only [List.mem_map] at hps
    obtain ⟨q, hq, rfl⟩ := hps
    exact advanceProc_inv (hinv q hq) (by linarith) (hcomp q hq) (harr2 q hq)
  · rw [if_neg hdt]
    have heq : ne = s.current_time := le_antisymm (by linarith) hne
    intro ps hps
    show PSimInv ne ps
    rw [heq]
    exact hinv ps hps

theorem completeProc_inv {t : ℚ} {ps : PSim} (h : PSimInv t ps) :
    PSimInv t (completeProc ps) := by
  obtain ⟨hlog, hends, harr, hact, hq⟩ := h
  cases hja : ps.proc.active_job with
  | none =>
      simp only [completeProc, hja]
      exact ⟨hlog, hends, harr, hact, hq⟩
  | some a0 =>
      by_cases hr : a0.remaining_time ≤ epsTol
      · simp only [completeProc, hja, if_pos hr]
        refine ⟨hlog, hends, harr, ?_, hq⟩
        intro a ha
        cases ha
      · simp only [completeProc, hja, if_neg hr]
        exact ⟨hlog, hends, harr, hact, hq⟩

theorem completionsPhase_inv {s : SimState} (h : SimInv s) :
    SimInv (completionsPhase s) := by
  intro ps hps
  rw [completionsPhase] at hps
  simp only [List.mem_map] at hps
  obtain ⟨q, hq, rfl⟩ := hps
  exact completeProc_inv (h q hq)

theorem arriveList_inv {t : ℚ} (l : List (Task × ℚ)) (c : String → ℕ)
    (q : List Job)
    (hl : ∀ ta ∈ l, t ≤ ta.2 ∧ 0 < ta.1.period ∧ 0 < ta.1.execution_time)
    (hq : ∀ j ∈ q, 0 ≤ j.remaining_time) :
    (∀ ta ∈ (arriveList t l c q).1,
      t ≤ ta.2 ∧ 0 < ta.1.period ∧ 0 < ta.1.execution_time) ∧
    (∀ j ∈ (arriveList t l c q).2.2, 0 ≤ j.remaining_time) := by
  induction l generalizing c q with
  | nil =>
      refine ⟨?_, hq⟩
      intro ta hta
      cases hta
  | cons hd rest ih =>
      obtain ⟨task, ar⟩ := hd
      have hhd := hl (task, ar) (List.mem_cons_self _ rest)
      have hrest : ∀ ta ∈ rest, t ≤ ta.2 ∧ 0 < ta.1.period ∧
          0 < ta.1.execution_time :=
        fun ta hta => hl ta (List.mem_cons_of_mem _ hta)
      by_cases hcr : |ar - t| < epsTol
      · simp only [arriveList, if_pos hcr]
        have hq2 : ∀ j ∈ q ++ [spawnJob t task c], 0 ≤ j.remaining_time := by
          intro j hj
          rcases List.mem_append.mp hj with hj | hj
          · exact hq j hj
          · rw [List.mem_singleton.mp hj]
            show (0:ℚ) ≤ (task.execution_time : ℚ)
            exact_mod_cast le_of_lt hhd.2.2
        obtain ⟨h1, h2⟩ := ih (bumpCounter c task.id) _ hrest hq2
        refine ⟨?_, h2⟩
        intro ta hta
        rcases List.mem_cons.mp hta with rfl | hta
        · refine ⟨?_, hhd.2.1, hhd.2.2⟩
          have hper : (0:ℚ) < (task.period : ℚ) := by exact_mod_cast hhd.2.1
          have := hhd.1
          show t ≤ ar + (task.period : ℚ)
          linarith
        · exact h1 ta hta
      · simp only [arriveList, if_neg hcr]
        obtain ⟨h1, h2⟩ := ih c q hrest hq
        refine ⟨?_, h2⟩
        intro ta hta
        rcases List.mem_cons.mp hta with rfl | hta
        · exact hhd
        · exact h1 ta hta

theorem arriveStep_inv {t : ℚ} {acc : List PSim × (String → ℕ)} {ps : PSim}
    (hacc : ∀ x ∈ acc.1, PSimInv t x) (hps : PSimInv t ps) :
    ∀ x ∈ (arriveStep t acc ps).1, PSimInv t x := by
  intro x hx
  rw [arriveStep] at hx
  rcases List.mem_append.mp hx with hx | hx
  · exact hacc x hx
  · rw [List.mem_singleton.mp hx]
    obtain ⟨hlog, hends, harr, hact, hq⟩ := hps
    obtain ⟨h1, h2⟩ :=
      arriveList_inv ps.arrivals acc.2 ps.proc.ready_queue harr hq
    exact ⟨hlog, hends, h1, hact, h2⟩

theorem arriveFold_inv {t : ℚ} : ∀ (l : List PSim)
    (acc : List PSim × (String → ℕ)),
    (∀ x ∈ acc.1, PSimInv t x) → (∀ ps ∈ l, PSimInv t ps) →
    ∀ x ∈ (l.foldl (arriveStep t) acc).1, PSimInv t x := by
  intro l
  induction l with
  | nil =>
      intro acc hacc _
      exact hacc
  | cons p l ih =>
      intro acc hacc hl
      rw [List.foldl_cons]
      exact ih (arriveStep t acc p)
        (arriveStep_inv hacc (hl p (List.mem_cons_self p l)))
        (fun x hx => hl x (List.mem_cons_of_mem p hx))

theorem arrivalsPhase_inv {s : SimState} (h : SimInv s) :
    SimInv (arrivalsPhase s) := by
  intro ps hps
  rw [arrivalsPhase] at hps
  refine arriveFold_inv s.procs ([], s.counters) ?_ h ps hps
  intro x hx
  cases hx

theorem demoteStep_log (p : Processor) :
    (demoteStep p).execution_log = p.execution_log := by
  cases hja : p.active_job with
  | none => simp [demoteStep, hja]
  | some a =>
      by_cases h : p.ready_queue.any (fun j => j.task.period < a.task.period) = true
      · simp [demoteStep, hja, h]
      · simp [demoteStep, hja, h]

theorem popHead_log (p : Processor) :
    (popHead p).execution_log = p.execution_log := by
  cases hja : p.active_job with
  | some a => simp [popHead, hja]
  | none =>
      cases hq : p.ready_queue with
      | nil => simp [popHead, hja, hq]
      | cons j r => simp [popHead, hja, hq]

theorem dispatchProc_log (p : Processor) :
    (dispatchProc p).execution_log = p.execution_log := by
  rw [dispatchProc, popHead_log]
  exact demoteStep_log p

theorem popHead_jobs {p : Processor} {j : Job}
    (h : j ∈ (popHead p).ready_queue ∨ (popHead p).active_job = some j) :
    j ∈ p.ready_queue ∨ p.active_job = some j := by
  cases hja : p.active_job with
  | some a =>
      simp only [popHead, hja] at h
      exact h
  | none =>
      cases hq : p.ready_queue with
      | nil =>
          simp only [popHead, hja, hq] at h
          exact h
      | cons m rest =>
          simp only [popHead, hja, hq] at h
          rcases h with h | h
          · exact Or.inl (List.mem_cons_of_mem m h)
          · have hm : m = j := by injection h
            refine Or.inl ?_
            rw [← hm]
            exact List.mem_cons_self m rest

theorem sortRQ_jobs {p : Processor} {j : Job}
    (h : j ∈ p.sort_ready_queue.ready_queue ∨
      p.sort_ready_queue.active_job = some j) :
    j ∈ p.ready_queue ∨ p.active_job = some j := by
  rcases h with h | h
  · exact Or.inl (mem_sortKey.mp h)
  · exact Or.inr h

theorem demoteStep_jobs {p : Processor} {j : Job}
    (h : j ∈ (demoteStep p).ready_queue ∨ (demoteStep p).active_job = some j) :
    j ∈ p.ready_queue ∨ p.active_job = some j := by
  cases hja : p.active_job with
  | none =>
      simp only [demoteStep, hja] at h
      exact h
  | some a =>
      by_cases hb : p.ready_queue.any (fun x => x.task.period < a.task.period) = true
      · simp only [demoteStep, hja, if_pos hb] at h
        rcases h with h | h
        · rcases List.mem_append.mp h with h | h
          · exact Or.inl h
          · refine Or.inr ?_
            rw [List.mem_singleton.mp h]
        · cases h
      · simp only [demoteStep, hja, if_neg hb] at h
        exact h

theorem dispatchProc_jobs {p : Processor} {j : Job}
    (h : j ∈ (dispatchProc p).ready_queue ∨
      (dispatchProc p).active_job = some j) :
    j ∈ p.ready_queue ∨ p.active_job = some j := by
  rw [dispatchProc] at h
  exact demoteStep_jobs (sortRQ_jobs (popHead_jobs h))

theorem dispatchPhase_inv {s : SimState} (h : SimInv s) :
    SimInv (dispatchPhase s) := by
  intro ps hps
  rw [dispatchPhase] at hps
  simp only [List.mem_map] at hps
  obtain ⟨q, hq, rfl⟩ := hps
  obtain ⟨hlog, hends, harr, hact, hrq⟩ := h q hq
  refine ⟨?_, ?_, harr, ?_, ?_⟩
  · show LogOK (dispatchProc q.proc).execution_log
    rw [dispatchProc_log]
    exact hlog
  · show logEndsLE (dispatchProc q.proc).execution_log s.current_time
    rw [dispatchProc_log]
    exact hends
  · intro a ha
    rcases dispatchProc_jobs (Or.inr ha) with h1 | h1
    · exact hrq a h1
    · exact hact a h1
  · intro j hj
    rcases dispatchProc_jobs (Or.inl hj) with h1 | h1
    · exact hrq j h1
    · exact hact j h1

theorem simStep_facts {mt : ℚ} {s s2 : SimState} (hguard : s.current_time < mt)
    (hinv : SimInv s) (h : simStep mt s = some s2) :
    ∃ ne, s2 = runPhases s ne ∧ s.current_time ≤ ne ∧
      (∀ ps ∈ s.procs, ∀ ta ∈ ps.arrivals, ne ≤ ta.2) ∧
      (∀ ps ∈ s.procs, ∀ a, ps.proc.active_job = some a →
        ne ≤ s.current_time + a.remaining_time) := by
  have harrLB : ∀ x ∈ s.procs.flatMap
      (fun ps => ps.arrivals.map (fun ta => ta.2)), s.current_time ≤ x := by
    intro x hx
    simp only [List.mem_flatMap, List.mem_map] at hx
    obtain ⟨ps, hps, ta, hta, rfl⟩ := hx
    exact ((hinv ps hps).2.2.1 ta hta).1
  have hcompLB : ∀ x ∈ s.procs.filterMap (fun ps => ps.proc.active_job.map
      (fun j => s.current_time + j.remaining_time)), s.current_time ≤ x := by
    intro x hx
    rw [List.mem_filterMap] at hx
    obtain ⟨ps, hps, hmap⟩ := hx
    cases hja : ps.proc.active_job with
    | none =>
        rw [hja] at hmap
        cases hmap
    | some a =>
        rw [hja] at hmap
        have hx2 : s.current_time + a.remaining_time = x := by
          injection hmap
        have h0 : 0 ≤ a.remaining_time := (hinv ps hps).2.2.2.1 a hja
        rw [← hx2]
        linarith
  rw [simStep, arrivalsMin, completionsMin, minOpt_listMinQ_append] at h
  cases hL : listMinQ
      (s.procs.flatMap (fun ps => ps.arrivals.map (fun ta => ta.2)) ++
        s.procs.filterMap (fun ps => ps.proc.active_job.map
          (fun j => s.current_time + j.remaining_time))) with
  | none =>
      simp only [hL] at h
      have hnil := listMinQ_eq_none hL
      rcases List.append_eq_nil.mp hnil with ⟨hnil1, hnil2⟩
      by_cases hc : mt = s.current_time
      · rw [if_pos hc] at h
        cases h
      · rw [if_neg hc] at h
        refine ⟨mt, (Option.some.inj h).symm, le_of_lt hguard, ?_, ?_⟩
        · intro ps hps ta hta
          exfalso
          have : ta.2 ∈ s.procs.flatMap
              (fun ps => ps.arrivals.map (fun ta => ta.2)) :=
            List.mem_flatMap.mpr ⟨ps, hps, List.mem_map.mpr ⟨ta, hta, rfl⟩⟩
          rw [hnil1] at this
          cases this
        · intro ps hps a ha
          exfalso
          have : s.current_time + a.remaining_time ∈ s.procs.filterMap
              (fun ps => ps.proc.active_job.map
                (fun j => s.current_time + j.remaining_time)) := by
            rw [List.mem_filterMap]
            exact ⟨ps, hps, by rw [ha]; rfl⟩
          rw [hnil2] at this
          cases this
  | some e =>
      simp only [hL] at h
      have he_lb : s.current_time ≤ e := by
        refine le_listMinQ hL ?_
        intro x hx
        rcases List.mem_append.mp hx with hx | hx
        · exact harrLB x hx
        · exact hcompLB x hx
      have he_arr : ∀ ps ∈ s.procs, ∀ ta ∈ ps.arrivals, e ≤ ta.2 := by
        intro ps hps ta hta
        refine listMinQ_le hL ta.2 (List.mem_append_left _ ?_)
        exact List.mem_flatMap.mpr ⟨ps, hps, List.mem_map.mpr ⟨ta, hta, rfl⟩⟩
      have he_comp : ∀ ps ∈ s.procs, ∀ a, ps.proc.active_job = some a →
          e ≤ s.current_time + a.remaining_time := by
        intro ps hps a ha
        refine listMinQ_le hL _ (List.mem_append_right _ ?_)
        rw [List.mem_filterMap]
        exact ⟨ps, hps, by rw [ha]; rfl⟩
      by_cases h1 : mt < e
      · by_cases hc : mt = s.current_time
        · rw [if_pos h1, if_pos hc] at h
          cases h
        · rw [if_pos h1, if_neg hc] at h
          refine ⟨mt, (Option.some.inj h).symm, le_of_lt hguard, ?_, ?_⟩
          · intro ps hps ta hta
            exact le_of_lt (lt_of_lt_of_le h1 (he_arr ps hps ta hta))
          · intro ps hps a ha
            exact le_of_lt (lt_of_lt_of_le h1 (he_comp ps hps a ha))
      · rw [if_neg h1] at h
        exact ⟨e, (Option.some.inj h).symm, he_lb, he_arr, he_comp⟩

theorem simInv_step {mt : ℚ} {s s2 : SimState} (hguard : s.current_time < mt)
    (hinv : SimInv s) (h : simStep mt s = some s2) : SimInv s2 := by
  obtain ⟨ne, rfl, hlb, harr2, hcomp⟩ := simStep_facts hguard hinv h
  rw [runPhases]
  exact dispatchPhase_inv (arrivalsPhase_inv (completionsPhase_inv
    (advancePhase_inv hinv hlb hcomp harr2)))

theorem simInv_loop (mt : ℚ) (fuel : ℕ) :
    ∀ s, SimInv s → SimInv (simLoop mt fuel s) := by
  induction fuel with
  | zero =>
      intro s h
      exact h
  | succ n ih =>
      intro s h
      rw [simLoop]
      by_cases hguard : s.current_time < mt
      · rw [if_pos hguard]
        cases hstep : simStep mt s with
        | none => exact h
        | some s2 => exact ih s2 (simInv_step hguard h hstep)
      · rw [if_neg hguard]
        exact h

theorem simInv_init (procs : List Processor)
    (hfresh : ∀ p ∈ procs, p.execution_log = [] ∧ p.active_job = none ∧
      p.ready_queue = [] ∧
      ∀ t ∈ p.assigned_tasks, 0 < t.period ∧ 0 < t.execution_time) :
    SimInv (initState procs) := by
  intro ps hps
  rw [initState] at hps
  simp only [List.mem_map] at hps
  obtain ⟨p, hp, rfl⟩ := hps
  obtain ⟨hlog, hact, hrq, htasks⟩ := hfresh p hp
  refine ⟨?_, ?_, ?_, ?_, ?_⟩
  · show LogOK p.execution_log
    rw [hlog]
    exact ⟨fun e he => absurd he (List.not_mem_nil e), List.chain'_nil⟩
  · show logEndsLE p.execution_log 0
    rw [hlog]
    intro e he
    cases he
  · intro ta hta
    simp only [initPSim, List.mem_map] at hta
    obtain ⟨t0, ht0, rfl⟩ := hta
    have hpos := htasks t0 (List.mem_dedup.mp ht0)
    exact ⟨le_refl 0, hpos.1, hpos.2⟩
  · intro a ha
    show (0:ℚ) ≤ a.remaining_time
    have : p.active_job = some a := ha
    rw [hact] at this
    cases this
  · intro j hj
    have : j ∈ p.ready_queue := hj
    rw [hrq] at this
    cases this

/-- C10: with a non-positive horizon the loop guard `current_time <
max_time` fails at once (the clock starts at 0), so `run_simulation`
returns the processors exactly as given — same `ready_queue`,
`active_job` and `execution_log`; no job is created and nothing is
logged. -/
theorem claim_C10 (fuel : ℕ) (procs : List Processor) (max_time : ℤ)
    (h : max_time ≤ 0) : run_simulation fuel procs max_time = procs := by
  have hmtQ : (max_time : ℚ) ≤ 0 := by exact_mod_cast h
  have hguard : ¬ ((initState procs).current_time < (max_time : ℚ)) := by
    rw [initState]
    exact not_lt.mpr hmtQ
  have hloop : simLoop (max_time : ℚ) fuel (initState procs) = initState procs := by
    cases fuel with
    | zero => rfl
    | succ n => rw [simLoop, if_neg hguard]
  rw [run_simulation, hloop, initState]
  simp only [List.map_map]
  have : ((fun ps : PSim => ps.proc) ∘ initPSim) = id := by
    funext p
    rfl
  rw [this, List.map_id]

/-- C10 witness at horizon 0 with one fresh processor. -/
theorem claim_C10_witness :
    run_simulation 3 [Processor.init 0] 0 = [Processor.init 0] :=
  claim_C10 3 [Processor.init 0] 0 (by decide)

/-- C5 (counterexample scenario): tasks `L` (period 4, execution 10) and
`H` (period 3, execution 1) on one processor. -/
def taskL : Task := { id := "L", period := 4, execution_time := 10 }

/-- The high-priority task of the C5 counterexample scenario. -/
def taskH : Task := { id := "H", period := 3, execution_time := 1 }

/-- One processor holding `taskL` and `taskH`, fresh. -/
def procLH : Processor :=
  { id := 0, assigned_tasks := [taskL, taskH], active_job := none,
    ready_queue := [], execution_log := [] }

/-- C5 (counterexample): in the reachable state after the dispatch step at
time 6 of the `procLH` scenario, the ready queue holds two period-4
jobs with the later-arrived one (arrival time 4) ahead of the
earlier-arrived one (arrival time 0): the second job of `L` was queued
at its arrival, while the first job of `L` was preempted at time 6 and
re-appended at the tail, so the reorder does not restore arrival order
for equal periods. -/
theorem claim_C5_counterexample :
    (run_simulation 12 [procLH] 6).map
      (fun p => p.ready_queue.map (fun j => (j.task.period, j.arrival_time))) =
      [[(4, 4), (4, 0)]] := by
  norm_num +decide [run_simulation, simLoop, simStep, runPhases, dispatchPhase,
    arrivalsPhase, completionsPhase, advancePhase, advanceProc, completeProc,
    arriveStep, arriveList, spawnJob, arrivalsMin, completionsMin, listMinQ, minOpt,
    appendLog, dispatchProc, demoteStep, popHead, Processor.sort_ready_queue, sortKey,
    insertKey, initState, initPSim, initCounters, bumpCounter, epsTol, taskL,
    taskH, procLH, List.dedup_nil, List.dedup_cons_of_not_mem,
    List.dedup_cons_of_mem, List.foldl_cons, List.foldl_nil,
    List.filterMap_cons, List.filterMap_nil, List.flatMap_cons,
    List.flatMap_nil, Option.map_some, Option.map_none, min_def,
    List.getLast?_concat, List.getLast?_nil]

/-- C5 (amended): after the reorder in each dispatch step the ready queue
is sorted in non-decreasing task-period order; the reorder is stable
with respect to the queue order before sorting (equal-period jobs keep
their relative queue positions); and the queue left after the whole
dispatch step is likewise sorted.  Arrival order for equal periods is
not preserved in general, because a preempted incumbent re-enters at
the tail of the queue (see the counterexample). -/
theorem claim_C5 :
    (∀ p : Processor, p.sort_ready_queue.ready_queue.Pairwise
      (fun a b => a.task.period ≤ b.task.period)) ∧
    (∀ (p : Processor) (c : ℤ),
      p.sort_ready_queue.ready_queue.filter
          (fun j => decide (j.task.period = c)) =
        p.ready_queue.filter (fun j => decide (j.task.period = c))) ∧
    (∀ p : Processor, (dispatchProc p).ready_queue.Pairwise
      (fun a b => a.task.period ≤ b.task.period)) := by
  refine ⟨?_, ?_, ?_⟩
  · intro p
    exact sortKey_pairwise _ p.ready_queue
  · intro p c
    exact sortKey_filter _ p.ready_queue c
  · intro p
    rw [dispatchProc]
    have hsorted : (demoteStep p).sort_ready_queue.ready_queue.Pairwise
        (fun a b => a.task.period ≤ b.task.period) :=
      sortKey_pairwise _ (demoteStep p).ready_queue
    cases hact : (demoteStep p).sort_ready_queue.active_job with
    | some a0 =>
        simp only [popHead, hact]
        exact hsorted
    | none =>
        cases hrq : (demoteStep p).sort_ready_queue.ready_queue with
        | nil =>
            simp only [popHead, hact, hrq]
            exact List.Pairwise.nil
        | cons m rest =>
            simp only [popHead, hact, hrq]
            rw [hrq] at hsorted
            exact (List.pairwise_cons.mp hsorted).2


theorem chain_le_all {x : ℚ × ℚ × String} {log : List (ℚ × ℚ × String)}
    (hse : ∀ e ∈ log, e.1 < e.2.1)
    (hch : List.Chain' (fun a b => a.2.1 ≤ b.1) (x :: log)) :
    ∀ y ∈ log, x.2.1 ≤ y.1 := by
  induction log generalizing x with
  | nil =>
      intro y hy
      cases hy
  | cons b l ih =>
      intro y hy
      rw [List.chain'_cons] at hch
      rcases List.mem_cons.mp hy with rfl | hy
      · exact hch.1
      · have hb := hse b (List.mem_cons_self b l)
        have h2 := ih (fun e he => hse e (List.mem_cons_of_mem b he)) hch.2 y hy
        linarith [hch.1]

theorem logOK_pairwise : ∀ log : List (ℚ × ℚ × String),
    (∀ e ∈ log, e.1 < e.2.1) → List.Chain' (fun a b => a.2.1 ≤ b.1) log →
    log.Pairwise (fun a b => a.1 ≤ b.1 ∧ a.2.1 ≤ b.1) := by
  intro log
  induction log with
  | nil =>
      intro _ _
      exact List.Pairwise.nil
  | cons x l ih =>
      intro hse hch
      have hse2 : ∀ e ∈ l, e.1 < e.2.1 :=
        fun e he => hse e (List.mem_cons_of_mem x he)
      refine List.pairwise_cons.mpr
        ⟨?_, ih hse2 (List.chain'_cons'.mp hch).2⟩
      intro y hy
      have hle := chain_le_all hse2 hch y hy
      have hx := hse x (List.mem_cons_self x l)
      exact ⟨le_trans (le_of_lt hx) hle, hle⟩

/-- C3: after `run_simulation` from fresh processors whose
tasks have positive periods and execution times, every execution-log
entry satisfies `start_time < end_time`, the log is sorted by start time
with pairwise non-overlapping entries (each ends no later than any later
entry starts), and no two consecutive entries are contiguous
(`end = start`) with the same task id — such segments are merged. -/
theorem claim_C3 (fuel : ℕ) (procs : List Processor) (max_time : ℤ)
    (hfresh : ∀ p ∈ procs, p.execution_log = [] ∧ p.active_job = none ∧
      p.ready_queue = [] ∧
      ∀ t ∈ p.assigned_tasks, 0 < t.period ∧ 0 < t.execution_time) :
    ∀ p ∈ run_simulation fuel procs max_time,
      (∀ e ∈ p.execution_log, e.1 < e.2.1) ∧
      p.execution_log.Pairwise (fun a b => a.1 ≤ b.1 ∧ a.2.1 ≤ b.1) ∧
      List.Chain' (fun a b => ¬ (a.2.1 = b.1 ∧ a.2.2 = b.2.2))
        p.execution_log := by
  intro p hp
  rw [run_simulation] at hp
  simp only [List.mem_map] at hp
  obtain ⟨ps, hps, rfl⟩ := hp
  have hinv := simInv_loop (max_time : ℚ) fuel (initState procs)
    (simInv_init procs hfresh) ps hps
  obtain ⟨⟨hse, hch⟩, hrest⟩ := hinv
  refine ⟨hse, ?_, ?_⟩
  · exact logOK_pairwise _ hse (hch.imp (fun a b h => h.1))
  · exact hch.imp (fun a b h => h.2)

/-- C3 witness at the two-task scenario `procLH` over horizon 6 (the
second conjunct records the discharged freshness hypothesis). -/
theorem claim_C3_witness :
    (∀ p ∈ run_simulation 12 [procLH] 6,
      (∀ e ∈ p.execution_log, e.1 < e.2.1) ∧
      p.execution_log.Pairwise (fun a b => a.1 ≤ b.1 ∧ a.2.1 ≤ b.1) ∧
      List.Chain' (fun a b => ¬ (a.2.1 = b.1 ∧ a.2.2 = b.2.2))
        p.execution_log) ∧
    procLH.execution_log = [] ∧ procLH.active_job = none :=
  ⟨claim_C3 12 [procLH] 6 (by decide), rfl, rfl⟩

/-- C4: remaining times are never negative.  At every reachable loop-head
state of `run_simulation` (where the next event time is computed from
the active jobs' `remaining_time`) all active and ready jobs have
non-negative remaining time; and the Step-B decrement never drives a
remaining time below zero — the event time never exceeds
`current_time + remaining_time` of any active job, so no clamping is
ever required and no negative remaining time enters further event
computation. -/
theorem claim_C4 (fuel : ℕ) (procs : List Processor) (max_time : ℤ)
    (hfresh : ∀ p ∈ procs, p.execution_log = [] ∧ p.active_job = none ∧
      p.ready_queue = [] ∧
      ∀ t ∈ p.assigned_tasks, 0 < t.period ∧ 0 < t.execution_time) :
    (∀ ps ∈ (simLoop (max_time : ℚ) fuel (initState procs)).procs,
      (∀ a, ps.proc.active_job = some a → 0 ≤ a.remaining_time) ∧
      ∀ j ∈ ps.proc.ready_queue, 0 ≤ j.remaining_time) ∧
    (∀ (mt : ℚ) (s s2 : SimState), SimInv s → s.current_time < mt →
      simStep mt s = some s2 → ∃ ne, s2 = runPhases s ne ∧
        ∀ ps ∈ s.procs, ∀ a, ps.proc.active_job = some a →
          0 ≤ a.remaining_time - (ne - s.current_time)) := by
  constructor
  · intro ps hps
    have hinv := simInv_loop (max_time : ℚ) fuel (initState procs)
      (simInv_init procs hfresh) ps hps
    exact ⟨hinv.2.2.2.1, hinv.2.2.2.2⟩
  · intro mt s s2 hinv hguard h
    obtain ⟨ne, rfl, hlb, harr2, hcomp⟩ := simStep_facts hguard hinv h
    refine ⟨ne, rfl, ?_⟩
    intro ps hps a ha
    have h1 := hcomp ps hps a ha
    linarith

/-- C4 witness: the invariant at the `procLH` scenario and the decrement
safety at a concrete event step from the empty state. -/
theorem claim_C4_witness :
    (∀ ps ∈ (simLoop ((6 : ℤ) : ℚ) 12 (initState [procLH])).procs,
      (∀ a, ps.proc.active_job = some a → 0 ≤ a.remaining_time) ∧
      ∀ j ∈ ps.proc.ready_queue, 0 ≤ j.remaining_time) ∧
    (∃ ne, runPhases stateW 1 = runPhases stateW ne ∧
      ∀ ps ∈ stateW.procs, ∀ a, ps.proc.active_job = some a →
        0 ≤ a.remaining_time - (ne - stateW.current_time)) := by
  have hfresh : ∀ p ∈ [procLH], p.execution_log = [] ∧ p.active_job = none ∧
      p.ready_queue = [] ∧
      ∀ t ∈ p.assigned_tasks, 0 < t.period ∧ 0 < t.execution_time := by
    decide
  have hinvW : SimInv stateW := by
    intro ps hps
    exact absurd hps (List.not_mem_nil ps)
  constructor
  · exact (claim_C4 12 [procLH] 6 hfresh).1
  · refine (claim_C4 12 [procLH] 6 hfresh).2 1 stateW (runPhases stateW 1)
      hinvW ?_ ?_
    · norm_num [stateW]
    · norm_num [simStep, arrivalsMin, completionsMin, listMinQ, minOpt, stateW]

end RM
